import Mathlib

/-!
Shallow embedding of the `informal-itf-rs` repository (files
`apalache-itf/src/itf.rs` and `itf/src/runner.rs`) and proofs of the
specification claims about it.

Conventions of the embedding:
 - JSON documents are modelled by the inductive `Json`; numbers are modelled
   as mathematical integers (ITF documents carry integer numbers; the claims
   only involve numbers in the signed 64-bit range).
 - Rust `Result<T, D::Error>` becomes `Except DeError T`; the error variants
   produced by serde are modelled by the structured type `DeError`.
 - serde-derived struct deserialization with a single renamed field
   (`#[serde(rename = tag)]`) is modelled by `deserializeTagged`: it scans the
   object's fields in order, decodes the payload when the tag key is met,
   ignores unknown fields (serde's default: there is no deny-unknown-fields
   attribute in the source), and fails on a missing or duplicated tag key.
 - `HashSet<T>` / `HashMap<K, V>` built by `collect()` are modelled by
   duplicate-free lists built by `hashSetInsert` / `hashMapInsert`, which have
   the observable insert semantics of the Rust collections (insert of a present
   element is a no-op for sets; insert overwrites the stored value for maps).
 - Machine integers `i64` are modelled as `Int` with explicit range checks.
-/

namespace ItfRs

/-- JSON values, as produced by `serde_json`.  Object fields are kept as an
ordered list of key/value pairs, matching the field-by-field visiting order a
serde `Deserializer` presents to a derived implementation. -/
inductive Json : Type
  | null : Json
  | bool (b : Bool) : Json
  | num (n : Int) : Json
  | str (s : String) : Json
  | arr (xs : List Json) : Json
  | obj (fields : List (String × Json)) : Json

/-- Decode errors, modelling the serde error variants met by this code:
wrong JSON kind, wrong sequence length, missing/duplicate struct field, the
custom arity message of `deserialize_itf_tuple` (kept structured so the two
reported lengths are visible), and other custom messages. -/
inductive DeError : Type
  | invalidType (expected : String) : DeError
  | invalidLength (found : Nat) (expected : Nat) : DeError
  | missingField (tag : String) : DeError
  | duplicateField (tag : String) : DeError
  | tupleArity (expected : Nat) (found : Nat) : DeError
  | custom (msg : String) : DeError
deriving DecidableEq

/-- Rendering of a decode error as a message string, used where the source
converts an inner `serde_json::Error` into `de::Error::custom(e)`. -/
def DeError.render : DeError → String
  | .invalidType expected => ("invalid type, expected ") ++ expected
  | .invalidLength found expected =>
      ("invalid length ") ++ toString found ++ (", expected ") ++ toString expected
  | .missingField tag => ("missing field ") ++ tag
  | .duplicateField tag => ("duplicate field ") ++ tag
  | .tupleArity expected found =>
      ("expected tuple with ") ++ toString expected ++ (" elements but found ") ++ toString found
  | .custom msg => msg

/-- The transparent marker type `pub struct Itf<T>(T);`. -/
structure Itf (T : Type) : Type where
  mk ::
  val : T
deriving DecidableEq

/-- Method `Itf::value(self) -> T` (consuming unwrap). -/
def Itf.value {T : Type} (x : Itf T) : T := x.val

/-- Trait impl `From<T> for Itf<T>` (Lean does not allow the name `from`). -/
def Itf.ofValue {T : Type} (t : T) : Itf T := Itf.mk t

/-- Trait impl `Deref for Itf<T>` (read-through access to the inner value). -/
def Itf.deref {T : Type} (x : Itf T) : T := x.val

/-- Field scan of a serde-derived struct with the single renamed field `tag`:
unknown keys are ignored (serde default), a repeated tag key is a duplicate
field error, and reaching the end without having met the tag is a missing
field error.  `acc` holds the already-decoded payload, if any. -/
def structFields {α : Type} (tag : String) (inner : Json → Except DeError α) :
    List (String × Json) → Option α → Except DeError α
  | [], none => .error (.missingField tag)
  | [], some a => .ok a
  | (k, v) :: rest, acc =>
    if k = tag then
      match acc with
      | some _ => .error (.duplicateField tag)
      | none =>
        match inner v with
        | .error e => .error e
        | .ok a => structFields tag inner rest (some a)
    else structFields tag inner rest acc

/-- Deserialization of a derived single-field struct such as
`struct Set<T> { #[serde(rename = tag)] field: ... }` from a JSON value:
the value must be an object, whose fields are scanned by `structFields`. -/
def deserializeTagged {α : Type} (tag : String) (inner : Json → Except DeError α)
    (j : Json) : Except DeError α :=
  match j with
  | .obj fields => structFields tag inner fields none
  | _ => .error (.invalidType ("struct"))

/-- Elementwise deserialization of `Vec<T>` from a JSON array: elements are
decoded in order, the first failure aborts the whole vector. -/
def decodeVec {α : Type} (d : Json → Except DeError α) :
    List Json → Except DeError (List α)
  | [] => .ok []
  | j :: rest =>
    match d j with
    | .error e => .error e
    | .ok a =>
      match decodeVec d rest with
      | .error e => .error e
      | .ok as => .ok (a :: as)

/-- Deserialization of `Vec<T>` from a JSON value: requires an array. -/
def decodeSeq {α : Type} (d : Json → Except DeError α) (j : Json) :
    Except DeError (List α) :=
  match j with
  | .arr xs => decodeVec d xs
  | _ => .error (.invalidType ("sequence"))

/-- Deserialization of a Rust pair `(K, V)` from a JSON value: a two-element
array whose components are decoded in order; a wrong length is a serde
invalid-length error. -/
def decodePair {K V : Type} (dK : Json → Except DeError K) (dV : Json → Except DeError V)
    (j : Json) : Except DeError (K × V) :=
  match j with
  | .arr (k :: v :: rest) =>
    match dK k with
    | .error e => .error e
    | .ok kk =>
      match dV v with
      | .error e => .error e
      | .ok vv =>
        if rest.isEmpty then .ok (kk, vv)
        else .error (.invalidLength (rest.length + 2) 2)
  | .arr xs => .error (.invalidLength xs.length 2)
  | _ => .error (.invalidType ("sequence"))

/-- Deserialization of the scalar alias `ItfInt = i64`: a JSON number in the
signed 64-bit range. -/
def decodeI64 (j : Json) : Except DeError Int :=
  match j with
  | .num n => if -(2 ^ 63) ≤ n ∧ n < 2 ^ 63 then .ok n else .error (.invalidType ("i64"))
  | _ => .error (.invalidType ("i64"))

/-- Deserialization of the scalar alias `ItfString = String`. -/
def decodeString (j : Json) : Except DeError String :=
  match j with
  | .str s => .ok s
  | _ => .error (.invalidType ("string"))

/-- Deserialization of the scalar alias `ItfBool = bool`. -/
def decodeBool (j : Json) : Except DeError Bool :=
  match j with
  | .bool b => .ok b
  | _ => .error (.invalidType ("boolean"))

/-- `HashSet::insert` semantics on the list model: inserting an element that
is already present leaves the set unchanged. -/
def hashSetInsert {α : Type} [DecidableEq α] (s : List α) (x : α) : List α :=
  if x ∈ s then s else s ++ [x]

/-- `Vec::into_iter().collect::<HashSet<_>>()`: fold the elements into an
initially empty set. -/
def hashSetOfList {α : Type} [DecidableEq α] (xs : List α) : List α :=
  xs.foldl hashSetInsert []

/-- `HashMap::insert` semantics on the association-list model: if the key is
present its stored value is overwritten, otherwise the pair is appended. -/
def hashMapInsert {K V : Type} [DecidableEq K] (m : List (K × V)) (k : K) (v : V) :
    List (K × V) :=
  if m.any (fun p => decide (p.1 = k)) then
    m.map (fun p => if p.1 = k then (k, v) else p)
  else m ++ [(k, v)]

/-- `Vec::into_iter().collect::<HashMap<_, _>>()`: fold the pairs, in array
order, into an initially empty map. -/
def hashMapOfList {K V : Type} [DecidableEq K] (ps : List (K × V)) : List (K × V) :=
  ps.foldl (fun m p => hashMapInsert m p.1 p.2) []

/-- `HashMap` lookup on the association-list model. -/
def assocLookup {K V : Type} [DecidableEq K] (m : List (K × V)) (k : K) : Option V :=
  (m.find? (fun p => decide (p.1 = k))).map (fun p => p.2)

/-- `impl Deserialize for Itf<HashSet<T>>`: decode the derived
`Set { #[serde(rename = "#set")] set: Vec<T> }`, then collect the vector into
a hash set and wrap it. -/
def decodeSet {α : Type} [DecidableEq α] (d : Json → Except DeError α) (j : Json) :
    Except DeError (Itf (List α)) :=
  (deserializeTagged ("#set") (decodeSeq d) j).map (fun xs => Itf.mk (hashSetOfList xs))

/-- `impl Deserialize for Itf<HashMap<K, V>>`: decode the derived
`Map { #[serde(rename = "#map")] elements: Vec<(K, V)> }`, then collect the
pair vector into a hash map and wrap it. -/
def decodeMap {K V : Type} [DecidableEq K] (dK : Json → Except DeError K)
    (dV : Json → Except DeError V) (j : Json) : Except DeError (Itf (List (K × V))) :=
  (deserializeTagged ("#map") (decodeSeq (decodePair dK dV)) j).map
    (fun ps => Itf.mk (hashMapOfList ps))

/-- Digit-list value check used by `num_bigint::BigInt::from_str` on the part
of the string after the optional sign: the character list must be nonempty and
all decimal digits, and then denotes the base-10 value folded left to right. -/
def digitsVal? (cs : List Char) : Option Nat :=
  if cs.isEmpty then none
  else if cs.all Char.isDigit then
    some (cs.foldl (fun a c => 10 * a + (c.toNat - 48)) 0)
  else none

/-- `num_bigint::BigInt::from_str` (the `display_from_str` field codec):
an optional leading sign followed by one or more decimal digits. -/
def bigIntFromStr (s : String) : Option Int :=
  match s.data with
  | [] => none
  | c :: rest =>
    if c = '-' then (digitsVal? rest).map (fun m => -(m : Int))
    else if c = '+' then (digitsVal? rest).map (fun m => (m : Int))
    else (digitsVal? (c :: rest)).map (fun m => (m : Int))

/-- Decimal digits of a natural number, least significant first, with an
explicit fuel argument so that the recursion is structural (any fuel above
the number of digits gives the same result; `natDigitsRev` supplies `m + 1`,
which always suffices since `m / 10 < m` for `m ≥ 10`). -/
def natDigitsRevFuel : Nat → Nat → List Char
  | 0, _ => []
  | fuel + 1, m =>
    if m < 10 then [Nat.digitChar m]
    else Nat.digitChar (m % 10) :: natDigitsRevFuel fuel (m / 10)

/-- Decimal digits of a natural number, least significant first. -/
def natDigitsRev (m : Nat) : List Char :=
  natDigitsRevFuel (m + 1) m

/-- Character list of the canonical decimal rendering of an integer
(minus sign for negative values, then most-significant-first digits). -/
def intDecimalChars (n : Int) : List Char :=
  if n < 0 then '-' :: (natDigitsRev n.natAbs).reverse
  else (natDigitsRev n.toNat).reverse

/-- Canonical decimal string of an integer, the form meant by the phrase
`n` as decimal string. -/
def intDecimalString (n : Int) : String :=
  String.mk (intDecimalChars n)

/-- The generic message serde reports when no variant of an untagged enum
matches the input. -/
def untaggedMsg : String := "data did not match any variant of untagged enum IntOrBigInt"

/-- Decoding of the derived struct `BI { #[serde(rename = "#bigint")] value }`
payload: a JSON string parsed by `BigInt::from_str`. -/
def bigIntField (j : Json) : Except DeError Int :=
  match j with
  | .str s =>
    match bigIntFromStr s with
    | some v => .ok v
    | none => .error (.custom ("invalid digit found in string"))
  | _ => .error (.invalidType ("string"))

/-- `impl Deserialize for Itf<BigInt>`: the untagged enum `IntOrBigInt` first
tries the `Int(i64)` variant, then the tagged-object variant `BigInt(BI)`;
if neither matches, serde reports its generic untagged-enum error. -/
def decodeBigInt (j : Json) : Except DeError (Itf Int) :=
  match decodeI64 j with
  | .ok n => .ok (Itf.mk n)
  | .error _ =>
    match deserializeTagged ("#bigint") bigIntField j with
    | .ok v => .ok (Itf.mk v)
    | .error _ => .error (.custom untaggedMsg)

/-- Deserialization of `Vec<serde_json::Value>` from a JSON value (the field
type of the helper struct `Tup`): requires an array, elements kept as-is. -/
def jsonArray (j : Json) : Except DeError (List Json) :=
  match j with
  | .arr xs => .ok xs
  | _ => .error (.invalidType ("sequence"))

/-- `Tup::deserialize`: the derived struct
`Tup { #[serde(rename = "#tup")] elements: Vec<serde_json::Value> }`. -/
def tupElements (j : Json) : Except DeError (List Json) :=
  deserializeTagged ("#tup") jsonArray j

/-- Arity-2 instance of the `deserialize_itf_tuple!` macro: read the `#tup`
elements, check the length first (reporting expected and found lengths),
then re-decode each element positionally via `serde_json::from_value`, whose
error is converted with `de::Error::custom`. -/
def decodeTuple2 {A B : Type} (dA : Json → Except DeError A) (dB : Json → Except DeError B)
    (j : Json) : Except DeError (Itf (A × B)) :=
  match tupElements j with
  | .error e => .error e
  | .ok elems =>
    if h : elems.length = 2 then
      match dA (elems.get ⟨0, by omega⟩) with
      | .error e => .error (.custom e.render)
      | .ok a =>
        match dB (elems.get ⟨1, by omega⟩) with
        | .error e => .error (.custom e.render)
        | .ok b => .ok (Itf.mk (a, b))
    else .error (.tupleArity 2 elems.length)

/-- Arity-3 instance of the `deserialize_itf_tuple!` macro (same shape as
`decodeTuple2`, one more position). -/
def decodeTuple3 {A B C : Type} (dA : Json → Except DeError A) (dB : Json → Except DeError B)
    (dC : Json → Except DeError C) (j : Json) : Except DeError (Itf (A × B × C)) :=
  match tupElements j with
  | .error e => .error e
  | .ok elems =>
    if h : elems.length = 3 then
      match dA (elems.get ⟨0, by omega⟩) with
      | .error e => .error (.custom e.render)
      | .ok a =>
        match dB (elems.get ⟨1, by omega⟩) with
        | .error e => .error (.custom e.render)
        | .ok b =>
          match dC (elems.get ⟨2, by omega⟩) with
          | .error e => .error (.custom e.render)
          | .ok c => .ok (Itf.mk (a, b, c))
    else .error (.tupleArity 3 elems.length)

/-- The four caller-supplied operations of `trait Runner`, over the caller's
internal state `S` (Rust's `&mut self` / `&self` receiver), actual state `A`,
step result `R`, expected state `E` and error `Err`.  `init` and `step` take
`&mut self`, so they return an updated `S`; the two invariant checks take
`&self` and leave it unchanged. -/
structure Runner (S A R E Err : Type) : Type where
  init : S → E → Except Err (A × S)
  step : S → A → E → Except Err (R × A × S)
  result_invariant : S → R → E → Except Err Bool
  state_invariant : S → A → E → Except Err Bool

/-- One observable action of a `Runner::test` run: which operation was called,
at which step index, and what it returned.  Index 0 stands for the
initialization-time state-invariant check. -/
inductive Event (Err : Type) : Type
  | initOk : Event Err
  | initErr (e : Err) : Event Err
  | stepOk (i : Nat) : Event Err
  | stepErr (i : Nat) (e : Err) : Event Err
  | resInv (i : Nat) (b : Bool) : Event Err
  | resInvErr (i : Nat) (e : Err) : Event Err
  | stInv (i : Nat) (b : Bool) : Event Err
  | stInvErr (i : Nat) (e : Err) : Event Err
deriving DecidableEq

/-- The step index an event refers to, if any. -/
def Event.idx {Err : Type} : Event Err → Option Nat
  | .initOk => none
  | .initErr _ => none
  | .stepOk i => some i
  | .stepErr i _ => some i
  | .resInv i _ => some i
  | .resInvErr i _ => some i
  | .stInv i _ => some i
  | .stInvErr i _ => some i

/-- The step index of an invocation of `step` recorded by an event, if the
event records one. -/
def Event.stepIdx {Err : Type} : Event Err → Option Nat
  | .stepOk i => some i
  | .stepErr i _ => some i
  | _ => none

/-- The operation error recorded by an event, if the event records one. -/
def Event.errOf {Err : Type} : Event Err → Option Err
  | .initErr e => some e
  | .stepErr _ e => some e
  | .resInvErr _ e => some e
  | .stInvErr _ e => some e
  | _ => none

/-- Which invariant an `assert!` message names. -/
inductive InvKind : Type
  | resultInv : InvKind
  | stateInv : InvKind
deriving DecidableEq

/-- How a `Runner::test` run ends: normal return `Ok(())`, early return
`Err(e)` propagated by `?` from one of the four operations, or an
`assert!`-failure abort (a Rust panic) naming the invariant and step index. -/
inductive Outcome (Err : Type) : Type
  | ok : Outcome Err
  | err (e : Err) : Outcome Err
  | assertFail (k : InvKind) (i : Nat) : Outcome Err
deriving DecidableEq

/-- Every event of a run appears before the events of later steps;
`stepsLe log i` says no `step` invocation recorded in `log` concerns a trace
index beyond `i`. -/
def stepsLe {Err : Type} (log : List (Event Err)) (i : Nat) : Prop :=
  ∀ ev ∈ log, ∀ j, Event.stepIdx ev = some j → j ≤ i

/-- The `for (i, expected) in trace.iter().enumerate().skip(1)` loop of
`Runner::test`, over the remaining expected states with `i` the index of the
first of them: call `step`, assert `result_invariant`, assert
`state_invariant`, recurse.  The returned list logs the operation calls in
order; a false assertion aborts with `Outcome.assertFail`. -/
def testLoop {S A R E Err : Type} (r : Runner S A R E Err) :
    S → A → Nat → List E → Outcome Err × List (Event Err)
  | _, _, _, [] => (.ok, [])
  | s, a, i, e :: rest =>
    match r.step s a e with
    | .error er => (.err er, [.stepErr i er])
    | .ok (res, a2, s2) =>
      match r.result_invariant s2 res e with
      | .error er => (.err er, [.stepOk i, .resInvErr i er])
      | .ok false => (.assertFail .resultInv i, [.stepOk i, .resInv i false])
      | .ok true =>
        match r.state_invariant s2 a2 e with
        | .error er => (.err er, [.stepOk i, .resInv i true, .stInvErr i er])
        | .ok false => (.assertFail .stateInv i, [.stepOk i, .resInv i true, .stInv i false])
        | .ok true =>
          let t := testLoop r s2 a2 (i + 1) rest
          (t.1, .stepOk i :: .resInv i true :: .stInv i true :: t.2)

/-- `Runner::test`: an empty trace returns immediately; otherwise `init` on
the first expected state, assert the state invariant on it (logged as index
0), then run the loop from index 1.  The `println!` progress lines are pure
output and are not modelled. -/
def Runner.test {S A R E Err : Type} (r : Runner S A R E Err) (s : S) (trace : List E) :
    Outcome Err × List (Event Err) :=
  match trace with
  | [] => (.ok, [])
  | e0 :: rest =>
    match r.init s e0 with
    | .error er => (.err er, [.initErr er])
    | .ok (a, s1) =>
      match r.state_invariant s1 a e0 with
      | .error er => (.err er, [.initOk, .stInvErr 0 er])
      | .ok false => (.assertFail .stateInv 0, [.initOk, .stInv 0 false])
      | .ok true =>
        let t := testLoop r s1 a 1 rest
        (t.1, .initOk :: .stInv 0 true :: t.2)

/-- Runner used to witness C1: its `state_invariant` is false exactly on the
expected state 1, the second element of the trace `[0, 1, 2]`. -/
def cRunnerA : Runner Unit Nat Nat Nat String where
  init := fun s e => .ok (e, s)
  step := fun s _ e => .ok (0, e, s)
  result_invariant := fun _ _ _ => .ok true
  state_invariant := fun _ _ e => .ok (decide (e ≠ 1))

/-- Runner used to witness C9: its `step` operation fails with the error
string at every step. -/
def cRunnerB : Runner Unit Nat Nat Nat String where
  init := fun s e => .ok (e, s)
  step := fun _ _ _ => .error ("boom")
  result_invariant := fun _ _ _ => .ok true
  state_invariant := fun _ _ _ => .ok true

/-- Lookup of the map decode's last-write-wins semantics, stated the way the
specification phrases it: the value of the last pair in array order whose key
equals the one looked up, if any.  This is the specification-side function C3
compares the decoded map against. -/
def lastWriteLookup {K V : Type} [DecidableEq K] : List (K × V) → K → Option V
  | [], _ => none
  | p :: ps, k =>
    match lastWriteLookup ps k with
    | some v => some v
    | none => if p.1 = k then some p.2 else none

/-! Supporting lemmas: decimal rendering and parsing agree. -/

theorem digitChar_isDigit : ∀ d, d < 10 → (Nat.digitChar d).isDigit = true := by decide

theorem digitChar_toNat : ∀ d, d < 10 → (Nat.digitChar d).toNat = 48 + d := by decide

theorem natDigitsRevFuel_ne_nil (fuel : Nat) : ∀ m, m < fuel → natDigitsRevFuel fuel m ≠ [] := by
  induction fuel with
  | zero => intro m h; omega
  | succ f ih =>
    intro m h
    simp only [natDigitsRevFuel]
    by_cases hm : m < 10
    · rw [if_pos hm]; simp
    · rw [if_neg hm]; simp

theorem natDigitsRevFuel_isDigit (fuel : Nat) : ∀ m, m < fuel →
    ∀ c ∈ natDigitsRevFuel fuel m, c.isDigit = true := by
  induction fuel with
  | zero => intro m h; omega
  | succ f ih =>
    intro m h c hc
    simp only [natDigitsRevFuel] at hc
    by_cases hm : m < 10
    · rw [if_pos hm] at hc
      simp only [List.mem_singleton] at hc
      subst hc
      exact digitChar_isDigit m hm
    · rw [if_neg hm] at hc
      rcases List.mem_cons.mp hc with h1 | h2
      · subst h1; exact digitChar_isDigit _ (Nat.mod_lt m (by omega))
      · exact ih (m / 10) (by omega) c h2

theorem natDigitsRevFuel_foldr (fuel : Nat) : ∀ m, m < fuel →
    (natDigitsRevFuel fuel m).foldr (fun c acc => 10 * acc + (c.toNat - 48)) 0 = m := by
  induction fuel with
  | zero => intro m h; omega
  | succ f ih =>
    intro m h
    simp only [natDigitsRevFuel]
    by_cases hm : m < 10
    · rw [if_pos hm]
      simp only [List.foldr_cons, List.foldr_nil]
      rw [digitChar_toNat m hm]
      omega
    · rw [if_neg hm]
      simp only [List.foldr_cons]
      rw [ih (m / 10) (by omega), digitChar_toNat (m % 10) (Nat.mod_lt m (by omega))]
      omega

theorem natDigitsRev_ne_nil (m : Nat) : natDigitsRev m ≠ [] :=
  natDigitsRevFuel_ne_nil (m + 1) m (by omega)

theorem natDigitsRev_isDigit (m : Nat) : ∀ c ∈ natDigitsRev m, c.isDigit = true :=
  natDigitsRevFuel_isDigit (m + 1) m (by omega)

theorem natDigitsRev_foldr (m : Nat) :
    (natDigitsRev m).foldr (fun c acc => 10 * acc + (c.toNat - 48)) 0 = m :=
  natDigitsRevFuel_foldr (m + 1) m (by omega)

theorem digitsVal?_eq (cs : List Char) (hne : cs ≠ []) (hd : ∀ c ∈ cs, c.isDigit = true) :
    digitsVal? cs = some (cs.foldl (fun a c => 10 * a + (c.toNat - 48)) 0) := by
  unfold digitsVal?
  rw [if_neg (by simpa using hne), if_pos (by rw [List.all_eq_true]; exact hd)]

theorem digitsVal?_natDigitsRev (m : Nat) :
    digitsVal? ((natDigitsRev m).reverse) = some m := by
  rw [digitsVal?_eq]
  · congr 1
    rw [List.foldl_reverse]
    exact natDigitsRev_foldr m
  · intro h
    exact natDigitsRev_ne_nil m (List.reverse_eq_nil_iff.mp h)
  · intro c hc
    exact natDigitsRev_isDigit m c (List.mem_reverse.mp hc)

theorem bigIntFromStr_intDecimalString (n : Int) :
    bigIntFromStr (intDecimalString n) = some n := by
  unfold intDecimalString intDecimalChars
  by_cases hn : n < 0
  · rw [if_pos hn]
    show (digitsVal? ((natDigitsRev n.natAbs).reverse)).map (fun m => -(m : Int)) = some n
    rw [digitsVal?_natDigitsRev]
    show some (-(n.natAbs : Int)) = some n
    congr 1
    omega
  · rw [if_neg hn]
    have hne : (natDigitsRev n.toNat).reverse ≠ [] := by
      intro h
      exact natDigitsRev_ne_nil n.toNat (List.reverse_eq_nil_iff.mp h)
    obtain ⟨c, cs, hl⟩ := List.exists_cons_of_ne_nil hne
    have hcd : c.isDigit = true := by
      apply natDigitsRev_isDigit n.toNat
      rw [← List.mem_reverse, hl]
      exact List.mem_cons_self c cs
    have hcm : c ≠ '-' := by
      intro h
      rw [h] at hcd
      exact absurd hcd (by decide)
    have hcp : c ≠ '+' := by
      intro h
      rw [h] at hcd
      exact absurd hcd (by decide)
    rw [hl]
    show (if c = '-' then (digitsVal? cs).map (fun m => -(m : Int))
      else if c = '+' then (digitsVal? cs).map (fun m => (m : Int))
      else (digitsVal? (c :: cs)).map (fun m => (m : Int))) = some n
    rw [if_neg hcm, if_neg hcp, ← hl, digitsVal?_natDigitsRev]
    show some ((n.toNat : Int)) = some n
    congr 1
    omega



theorem decodeI64_num (n : Int) (h1 : -(2 ^ 63) ≤ n) (h2 : n < 2 ^ 63) :
    decodeI64 (.num n) = .ok n := by
  simp only [decodeI64]
  rw [if_pos ⟨h1, h2⟩]

/-- C2: for every 64-bit signed integer `n`, decoding the plain JSON number
`n` as Big Integer and decoding the tagged object with key `#bigint` and the
decimal string of `n` as payload both succeed and yield the same integer
value `n`. -/
theorem bigint_plain_and_tagged_agree (n : Int) (h1 : -(2 ^ 63) ≤ n) (h2 : n < 2 ^ 63) :
    decodeBigInt (.num n) = .ok (Itf.mk n) ∧
      decodeBigInt (.obj [(("#bigint"), .str (intDecimalString n))]) = .ok (Itf.mk n) := by
  constructor
  · unfold decodeBigInt
    rw [decodeI64_num n h1 h2]
  · have hb : bigIntField (.str (intDecimalString n)) = .ok n := by
      simp only [bigIntField]
      rw [bigIntFromStr_intDecimalString]
    have hts : deserializeTagged ("#bigint") bigIntField
        (.obj [(("#bigint"), .str (intDecimalString n))]) = .ok n := by
      show structFields ("#bigint") bigIntField
        [(("#bigint"), .str (intDecimalString n))] none = .ok n
      unfold structFields
      rw [if_pos rfl, hb]
      rfl
    have hd : decodeI64 (.obj [(("#bigint"), .str (intDecimalString n))]) =
        .error (.invalidType ("i64")) := rfl
    unfold decodeBigInt
    rw [hd, hts]

/-- Witness for C2 at the concrete input 1024 (and the corresponding tagged
object carrying the string of 1024). -/
theorem bigint_plain_and_tagged_agree_witness :
    decodeBigInt (.num 1024) = .ok (Itf.mk 1024) ∧
      decodeBigInt (.obj [(("#bigint"), .str (intDecimalString 1024))]) = .ok (Itf.mk 1024) :=
  bigint_plain_and_tagged_agree 1024 (by decide) (by decide)



/-- Unfolding equation of `structFields` at a cons cell. -/
theorem structFields_cons {α : Type} (tag : String) (inner : Json → Except DeError α)
    (k : String) (v : Json) (rest : List (String × Json)) (acc : Option α) :
    structFields tag inner ((k, v) :: rest) acc =
      if k = tag then
        match acc with
        | some _ => .error (.duplicateField tag)
        | none =>
          match inner v with
          | .error e => .error e
          | .ok a => structFields tag inner rest (some a)
      else structFields tag inner rest acc := rfl

/-- Scanning fields whose keys all differ from the tag neither decodes nor
fails: serde ignores unknown fields by default. -/
theorem structFields_skip {α : Type} (tag : String) (inner : Json → Except DeError α)
    (pre rest : List (String × Json)) (acc : Option α)
    (hpre : ∀ p ∈ pre, p.1 ≠ tag) :
    structFields tag inner (pre ++ rest) acc = structFields tag inner rest acc := by
  induction pre with
  | nil => rfl
  | cons p pre ih =>
    obtain ⟨k, v⟩ := p
    have hk : k ≠ tag := hpre (k, v) (List.mem_cons_self _ _)
    show structFields tag inner ((k, v) :: (pre ++ rest)) acc = structFields tag inner rest acc
    rw [structFields_cons, if_neg hk]
    exact ih (fun p hp => hpre p (List.mem_cons_of_mem _ hp))

/-- A field list that never carries the tag key scans to a missing-field
error. -/
theorem structFields_missing {α : Type} (tag : String) (inner : Json → Except DeError α)
    (fields : List (String × Json)) (hf : ∀ p ∈ fields, p.1 ≠ tag) :
    structFields tag inner fields none = .error (.missingField tag) := by
  have h := structFields_skip tag inner fields [] none hf
  rw [List.append_nil] at h
  rw [h]
  rfl

/-- C5 (amended): extra keys beside the recognized tag key are ignored, not
rejected: decoding a tagged object whose field list carries the tag exactly
once, in any position, behaves exactly as decoding the tagged payload alone.
This is serde's default unknown-field handling; the source has no
deny-unknown-fields attribute. -/
theorem tagged_extra_keys_ignored {α : Type} (tag : String)
    (inner : Json → Except DeError α) (pre post : List (String × Json)) (v : Json)
    (hpre : ∀ p ∈ pre, p.1 ≠ tag) (hpost : ∀ p ∈ post, p.1 ≠ tag) :
    deserializeTagged tag inner (.obj (pre ++ (tag, v) :: post)) = inner v := by
  show structFields tag inner (pre ++ (tag, v) :: post) none = inner v
  rw [structFields_skip tag inner pre _ none hpre, structFields_cons, if_pos rfl]
  cases hv : inner v with
  | error e => rfl
  | ok a =>
    show structFields tag inner post (some a) = .ok a
    have h := structFields_skip tag inner post [] (some a) hpost
    rw [List.append_nil] at h
    rw [h]
    rfl

/-- Counterexample to C5 as stated: decoding an object that carries the
recognized `#set` tag together with an extra key `foo` as a Set does not fail
with a shape error; it succeeds, ignoring the extra key. -/
theorem tagged_extra_keys_counterexample :
    decodeSet decodeI64 (.obj [(("#set"), .arr [.num 1]), (("foo"), .num 2)]) =
      .ok (Itf.mk [(1 : Int)]) := rfl

/-- Witness for the amended C5: with unknown keys before and after the tag,
the tagged decode equals the payload decode. -/
theorem tagged_extra_keys_ignored_witness :
    deserializeTagged ("#set") (decodeSeq decodeI64)
        (.obj ([(("foo"), .num 2)] ++ (("#set"), .arr [.num 1]) :: [(("bar"), .num 3)])) =
      decodeSeq decodeI64 (.arr [.num 1]) :=
  tagged_extra_keys_ignored ("#set") (decodeSeq decodeI64) _ _ _
    (by decide) (by decide)



/-- C8: decoding any tagged target shape from an object that lacks the
required tag key fails (with a missing-field shape error for the derived
structs, and with serde's untagged-enum error for Big Integer, whose tagged
variant in turn fails on the missing field); no default value is produced. -/
theorem missing_tag_rejected {α K V A2 B2 C2 : Type} [DecidableEq α] [DecidableEq K]
    (dS : Json → Except DeError α) (dK : Json → Except DeError K) (dV : Json → Except DeError V)
    (dA : Json → Except DeError A2) (dB : Json → Except DeError B2) (dC : Json → Except DeError C2)
    (fields : List (String × Json))
    (hf : ∀ p ∈ fields, p.1 ≠ ("#set") ∧ p.1 ≠ ("#map") ∧ p.1 ≠ ("#tup") ∧ p.1 ≠ ("#bigint")) :
    decodeSet dS (.obj fields) = .error (.missingField ("#set")) ∧
      decodeMap dK dV (.obj fields) = .error (.missingField ("#map")) ∧
      decodeTuple3 dA dB dC (.obj fields) = .error (.missingField ("#tup")) ∧
      decodeBigInt (.obj fields) = .error (.custom untaggedMsg) := by
  have hset : deserializeTagged ("#set") (decodeSeq dS) (.obj fields) =
      .error (.missingField ("#set")) :=
    structFields_missing _ _ fields (fun p hp => (hf p hp).1)
  have hmap : deserializeTagged ("#map") (decodeSeq (decodePair dK dV)) (.obj fields) =
      .error (.missingField ("#map")) :=
    structFields_missing _ _ fields (fun p hp => (hf p hp).2.1)
  have htup : tupElements (.obj fields) = .error (.missingField ("#tup")) :=
    structFields_missing _ _ fields (fun p hp => (hf p hp).2.2.1)
  have hbig : deserializeTagged ("#bigint") bigIntField (.obj fields) =
      .error (.missingField ("#bigint")) :=
    structFields_missing _ _ fields (fun p hp => (hf p hp).2.2.2)
  refine ⟨?_, ?_, ?_, ?_⟩
  · unfold decodeSet
    rw [hset]
    rfl
  · unfold decodeMap
    rw [hmap]
    rfl
  · unfold decodeTuple3
    rw [htup]
  · have hd : decodeI64 (.obj fields) = .error (.invalidType ("i64")) := rfl
    unfold decodeBigInt
    rw [hd, hbig]

/-- Witness for C8 at the concrete object with the single key `foo`. -/
theorem missing_tag_rejected_witness :
    decodeSet decodeI64 (.obj [(("foo"), .arr [])]) = .error (.missingField ("#set")) ∧
      decodeMap decodeString decodeI64 (.obj [(("foo"), .arr [])]) =
        .error (.missingField ("#map")) ∧
      decodeTuple3 decodeI64 decodeI64 decodeI64 (.obj [(("foo"), .arr [])]) =
        .error (.missingField ("#tup")) ∧
      decodeBigInt (.obj [(("foo"), .arr [])]) = .error (.custom untaggedMsg) :=
  missing_tag_rejected decodeI64 decodeString decodeI64 decodeI64 decodeI64 decodeI64
    [(("foo"), .arr [])] (by decide)

/-- The tagged elements of a well-formed singleton `#tup` object. -/
theorem tupElements_singleton (xs : List Json) :
    tupElements (.obj [(("#tup"), .arr xs)]) = .ok xs := by
  show structFields ("#tup") jsonArray [(("#tup"), .arr xs)] none = .ok xs
  rw [structFields_cons, if_pos rfl]
  rfl

/-- C7: decoding a `#tup` object against a tuple shape whose arity differs
from the array length fails with the arity error carrying the expected arity
and the found length, for the arity-2 and arity-3 tuple decoders (the other
arities instantiate the same macro). -/
theorem tuple_arity_mismatch {A2 B2 C2 : Type}
    (dA : Json → Except DeError A2) (dB : Json → Except DeError B2) (dC : Json → Except DeError C2)
    (xs2 xs3 : List Json) (h2 : xs2.length ≠ 2) (h3 : xs3.length ≠ 3) :
    decodeTuple2 dA dB (.obj [(("#tup"), .arr xs2)]) = .error (.tupleArity 2 xs2.length) ∧
      decodeTuple3 dA dB dC (.obj [(("#tup"), .arr xs3)]) = .error (.tupleArity 3 xs3.length) := by
  constructor
  · simp only [decodeTuple2, tupElements_singleton]
    rw [dif_neg h2]
  · simp only [decodeTuple3, tupElements_singleton]
    rw [dif_neg h3]

/-- Witness for C7: the particular input of the claim, a 2-element `#tup`
array against the arity-3 shape (and a 3-element array against arity 2),
reporting expected 3, found 2 (resp. expected 2, found 3). -/
theorem tuple_arity_mismatch_witness :
    decodeTuple2 decodeI64 decodeI64
        (.obj [(("#tup"), .arr [.num 1, .num 2, .num 3])]) = .error (.tupleArity 2 3) ∧
      decodeTuple3 decodeI64 decodeI64 decodeI64
        (.obj [(("#tup"), .arr [.num 1, .num 2])]) = .error (.tupleArity 3 2) :=
  tuple_arity_mismatch decodeI64 decodeI64 decodeI64 [.num 1, .num 2, .num 3] [.num 1, .num 2]
    (by decide) (by decide)

/-- C6: `test` on an empty expected-state trace returns `Ok(())` and no
operation of the runner is invoked (the event log is empty). -/
theorem runner_empty_trace {S A R E Err : Type} (r : Runner S A R E Err) (s : S) :
    Runner.test r s [] = (Outcome.ok, ([] : List (Event Err))) := rfl

/-- C10: the wrapper is transparent: wrapping then unwrapping returns the
value unchanged, read-through access observes exactly the inner value, and
the wrapper carries no state beyond the inner value (it is determined by,
and injective in, its inner value). -/
theorem itf_wrapper_transparent {T : Type} (t : T) (x : Itf T) :
    (Itf.ofValue t).value = t ∧ (Itf.ofValue t).deref = t ∧
      Itf.ofValue x.deref = x ∧ ∀ y : Itf T, x.deref = y.deref → x = y := by
  refine ⟨rfl, rfl, rfl, ?_⟩
  intro y h
  cases x
  cases y
  exact congrArg Itf.mk h

/-- Witness for C10 at concrete values. -/
theorem itf_wrapper_transparent_witness :
    (Itf.ofValue (42 : Nat)).value = 42 ∧ (Itf.ofValue (42 : Nat)).deref = 42 ∧
      Itf.ofValue (Itf.ofValue (7 : Nat)).deref = Itf.ofValue 7 ∧
      ∀ y : Itf Nat, (Itf.ofValue (7 : Nat)).deref = y.deref → Itf.ofValue 7 = y :=
  itf_wrapper_transparent 42 (Itf.ofValue 7)



section RunnerLemmas

variable {S A R E Err : Type} (r : Runner S A R E Err)

theorem testLoop_nil (s : S) (a : A) (i : Nat) :
    testLoop r s a i ([] : List E) = (.ok, []) := rfl

theorem testLoop_stepErr {s : S} {a : A} {i : Nat} {e : E} {rest : List E} {er : Err}
    (hstep : r.step s a e = .error er) :
    testLoop r s a i (e :: rest) = (.err er, [.stepErr i er]) := by
  simp only [testLoop, hstep]

theorem testLoop_resInvErr {s s2 : S} {a : A} {a2 : A} {res : R} {i : Nat} {e : E}
    {rest : List E} {er : Err}
    (hstep : r.step s a e = .ok (res, a2, s2))
    (hres : r.result_invariant s2 res e = .error er) :
    testLoop r s a i (e :: rest) = (.err er, [.stepOk i, .resInvErr i er]) := by
  simp only [testLoop, hstep, hres]

theorem testLoop_resInvFalse {s s2 : S} {a : A} {a2 : A} {res : R} {i : Nat} {e : E}
    {rest : List E}
    (hstep : r.step s a e = .ok (res, a2, s2))
    (hres : r.result_invariant s2 res e = .ok false) :
    testLoop r s a i (e :: rest) = (.assertFail .resultInv i, [.stepOk i, .resInv i false]) := by
  simp only [testLoop, hstep, hres]

theorem testLoop_stInvErr {s s2 : S} {a : A} {a2 : A} {res : R} {i : Nat} {e : E}
    {rest : List E} {er : Err}
    (hstep : r.step s a e = .ok (res, a2, s2))
    (hres : r.result_invariant s2 res e = .ok true)
    (hst : r.state_invariant s2 a2 e = .error er) :
    testLoop r s a i (e :: rest) = (.err er, [.stepOk i, .resInv i true, .stInvErr i er]) := by
  simp only [testLoop, hstep, hres, hst]

theorem testLoop_stInvFalse {s s2 : S} {a : A} {a2 : A} {res : R} {i : Nat} {e : E}
    {rest : List E}
    (hstep : r.step s a e = .ok (res, a2, s2))
    (hres : r.result_invariant s2 res e = .ok true)
    (hst : r.state_invariant s2 a2 e = .ok false) :
    testLoop r s a i (e :: rest) =
      (.assertFail .stateInv i, [.stepOk i, .resInv i true, .stInv i false]) := by
  simp only [testLoop, hstep, hres, hst]

theorem testLoop_next {s s2 : S} {a : A} {a2 : A} {res : R} {i : Nat} {e : E}
    {rest : List E}
    (hstep : r.step s a e = .ok (res, a2, s2))
    (hres : r.result_invariant s2 res e = .ok true)
    (hst : r.state_invariant s2 a2 e = .ok true) :
    testLoop r s a i (e :: rest) =
      ((testLoop r s2 a2 (i + 1) rest).1,
        .stepOk i :: .resInv i true :: .stInv i true :: (testLoop r s2 a2 (i + 1) rest).2) := by
  simp only [testLoop, hstep, hres, hst]

theorem test_nil (s : S) :
    Runner.test r s ([] : List E) = (.ok, []) := rfl

theorem test_initErr {s : S} {e0 : E} {rest : List E} {er : Err}
    (hinit : r.init s e0 = .error er) :
    Runner.test r s (e0 :: rest) = (.err er, [.initErr er]) := by
  simp only [Runner.test, hinit]

theorem test_stInvErr0 {s s1 : S} {a : A} {e0 : E} {rest : List E} {er : Err}
    (hinit : r.init s e0 = .ok (a, s1))
    (hst : r.state_invariant s1 a e0 = .error er) :
    Runner.test r s (e0 :: rest) = (.err er, [.initOk, .stInvErr 0 er]) := by
  simp only [Runner.test, hinit, hst]

theorem test_stInvFalse0 {s s1 : S} {a : A} {e0 : E} {rest : List E}
    (hinit : r.init s e0 = .ok (a, s1))
    (hst : r.state_invariant s1 a e0 = .ok false) :
    Runner.test r s (e0 :: rest) = (.assertFail .stateInv 0, [.initOk, .stInv 0 false]) := by
  simp only [Runner.test, hinit, hst]

theorem test_go {s s1 : S} {a : A} {e0 : E} {rest : List E}
    (hinit : r.init s e0 = .ok (a, s1))
    (hst : r.state_invariant s1 a e0 = .ok true) :
    Runner.test r s (e0 :: rest) =
      ((testLoop r s1 a 1 rest).1, .initOk :: .stInv 0 true :: (testLoop r s1 a 1 rest).2) := by
  simp only [Runner.test, hinit, hst]

end RunnerLemmas



section RunnerFailFast

variable {S A R E Err : Type} (r : Runner S A R E Err)

/-- Fail-fast for the stepping loop, state-invariant side: if the log of a
loop run records a false state-invariant check at index `i`, the loop's
outcome is the state-invariant assertion failure at `i`, `i` is at or past
the loop's starting index, and no recorded `step` call concerns an index
beyond `i`. -/
theorem testLoop_stInv_false :
    ∀ (rest : List E) (s : S) (a : A) (i0 i : Nat),
      Event.stInv i false ∈ (testLoop r s a i0 rest).2 →
      (testLoop r s a i0 rest).1 = .assertFail .stateInv i ∧ i0 ≤ i ∧
        stepsLe (testLoop r s a i0 rest).2 i := by
  intro rest
  induction rest with
  | nil => intro s a i0 i h; rw [testLoop_nil] at h; simp at h
  | cons e rest ih =>
    intro s a i0 i h
    cases hstep : r.step s a e with
    | error er =>
      rw [testLoop_stepErr r hstep] at h
      simp at h
    | ok v =>
      obtain ⟨res, a2, s2⟩ := v
      cases hres : r.result_invariant s2 res e with
      | error er =>
        rw [testLoop_resInvErr r hstep hres] at h
        simp at h
      | ok b =>
        cases b with
        | false =>
          rw [testLoop_resInvFalse r hstep hres] at h
          simp at h
        | true =>
          cases hst : r.state_invariant s2 a2 e with
          | error er =>
            rw [testLoop_stInvErr r hstep hres hst] at h
            simp at h
          | ok b2 =>
            cases b2 with
            | false =>
              rw [testLoop_stInvFalse r hstep hres hst] at h ⊢
              simp only [List.mem_cons, List.not_mem_nil, or_false] at h
              rcases h with h | h | h
              · exact absurd h (by simp)
              · exact absurd h (by simp)
              · have hi : i = i0 := by
                  have := h
                  simp only [Event.stInv.injEq] at this
                  exact this.1
                subst hi
                refine ⟨rfl, le_refl i, ?_⟩
                intro ev hev j hj
                simp only [List.mem_cons, List.not_mem_nil, or_false] at hev
                rcases hev with hev | hev | hev <;> subst hev <;>
                  simp only [Event.stepIdx, Option.some.injEq] at hj
                · omega
                · exact absurd hj (by simp)
                · exact absurd hj (by simp)
            | true =>
              rw [testLoop_next r hstep hres hst] at h ⊢
              simp only [List.mem_cons] at h
              rcases h with h | h | h | h
              · exact absurd h (by simp)
              · exact absurd h (by simp)
              · exact absurd h (by simp)
              · obtain ⟨h1, h2, h3⟩ := ih s2 a2 (i0 + 1) i h
                refine ⟨h1, by omega, ?_⟩
                intro ev hev j hj
                simp only [List.mem_cons] at hev
                rcases hev with hev | hev | hev | hev
                · subst hev; simp only [Event.stepIdx, Option.some.injEq] at hj; omega
                · subst hev; exact absurd hj (by simp [Event.stepIdx])
                · subst hev; exact absurd hj (by simp [Event.stepIdx])
                · exact h3 ev hev j hj

end RunnerFailFast



section RunnerFailFast2

variable {S A R E Err : Type} (r : Runner S A R E Err)

/-- Fail-fast for the stepping loop, result-invariant side: a false
result-invariant check recorded at index `i` means the loop aborted with the
result-invariant assertion failure at `i` and stepped no further. -/
theorem testLoop_resInv_false :
    ∀ (rest : List E) (s : S) (a : A) (i0 i : Nat),
      Event.resInv i false ∈ (testLoop r s a i0 rest).2 →
      (testLoop r s a i0 rest).1 = .assertFail .resultInv i ∧ i0 ≤ i ∧
        stepsLe (testLoop r s a i0 rest).2 i := by
  intro rest
  induction rest with
  | nil => intro s a i0 i h; rw [testLoop_nil] at h; simp at h
  | cons e rest ih =>
    intro s a i0 i h
    cases hstep : r.step s a e with
    | error er =>
      rw [testLoop_stepErr r hstep] at h
      simp at h
    | ok v =>
      obtain ⟨res, a2, s2⟩ := v
      cases hres : r.result_invariant s2 res e with
      | error er =>
        rw [testLoop_resInvErr r hstep hres] at h
        simp at h
      | ok b =>
        cases b with
        | false =>
          rw [testLoop_resInvFalse r hstep hres] at h ⊢
          simp only [List.mem_cons, List.not_mem_nil, or_false] at h
          rcases h with h | h
          · exact absurd h (by simp)
          · have hi : i = i0 := by
              simp only [Event.resInv.injEq] at h
              exact h.1
            subst hi
            refine ⟨rfl, le_refl i, ?_⟩
            intro ev hev j hj
            simp only [List.mem_cons, List.not_mem_nil, or_false] at hev
            rcases hev with hev | hev <;> subst hev <;>
              simp only [Event.stepIdx, Option.some.injEq] at hj
            · omega
            · exact absurd hj (by simp)
        | true =>
          cases hst : r.state_invariant s2 a2 e with
          | error er =>
            rw [testLoop_stInvErr r hstep hres hst] at h
            simp at h
          | ok b2 =>
            cases b2 with
            | false =>
              rw [testLoop_stInvFalse r hstep hres hst] at h
              simp at h
            | true =>
              rw [testLoop_next r hstep hres hst] at h ⊢
              simp only [List.mem_cons] at h
              rcases h with h | h | h | h
              · exact absurd h (by simp)
              · exact absurd h (by simp)
              · exact absurd h (by simp)
              · obtain ⟨h1, h2, h3⟩ := ih s2 a2 (i0 + 1) i h
                refine ⟨h1, by omega, ?_⟩
                intro ev hev j hj
                simp only [List.mem_cons] at hev
                rcases hev with hev | hev | hev | hev
                · subst hev; simp only [Event.stepIdx, Option.some.injEq] at hj; omega
                · subst hev; exact absurd hj (by simp [Event.stepIdx])
                · subst hev; exact absurd hj (by simp [Event.stepIdx])
                · exact h3 ev hev j hj

/-- Fail-fast for the whole run: a false invariant check recorded at index
`i` means `test` aborted with an assertion failure at `i` and `step` was
never invoked for any trace index beyond `i`. -/
theorem test_false_inv (s : S) (trace : List E) (i : Nat)
    (h : Event.stInv i false ∈ (Runner.test r s trace).2 ∨
      Event.resInv i false ∈ (Runner.test r s trace).2) :
    (∃ k, (Runner.test r s trace).1 = .assertFail k i) ∧
      stepsLe (Runner.test r s trace).2 i := by
  cases trace with
  | nil =>
    rw [test_nil] at h
    rcases h with h | h <;> simp at h
  | cons e0 rest =>
    cases hinit : r.init s e0 with
    | error er =>
      rw [test_initErr r hinit] at h
      rcases h with h | h <;> simp at h
    | ok v =>
      obtain ⟨a, s1⟩ := v
      cases hst : r.state_invariant s1 a e0 with
      | error er =>
        rw [test_stInvErr0 r hinit hst] at h
        rcases h with h | h <;> simp at h
      | ok b =>
        cases b with
        | false =>
          rw [test_stInvFalse0 r hinit hst] at h ⊢
          rcases h with h | h
          · simp only [List.mem_cons, List.not_mem_nil, or_false] at h
            rcases h with h | h
            · exact absurd h (by simp)
            · have hi : i = 0 := by
                simp only [Event.stInv.injEq] at h
                exact h.1
              subst hi
              refine ⟨⟨.stateInv, rfl⟩, ?_⟩
              intro ev hev j hj
              simp only [List.mem_cons, List.not_mem_nil, or_false] at hev
              rcases hev with hev | hev <;> subst hev <;>
                exact absurd hj (by simp [Event.stepIdx])
          · simp at h
        | true =>
          rw [test_go r hinit hst] at h ⊢
          have hmem : Event.stInv i false ∈ (testLoop r s1 a 1 rest).2 ∨
              Event.resInv i false ∈ (testLoop r s1 a 1 rest).2 := by
            rcases h with h | h
            · simp only [List.mem_cons] at h
              rcases h with h | h | h
              · exact absurd h (by simp)
              · exact absurd h (by simp)
              · exact Or.inl h
            · simp only [List.mem_cons] at h
              rcases h with h | h | h
              · exact absurd h (by simp)
              · exact absurd h (by simp)
              · exact Or.inr h
          have hout : (testLoop r s1 a 1 rest).1 = .assertFail .stateInv i ∨
              (testLoop r s1 a 1 rest).1 = .assertFail .resultInv i := by
            rcases hmem with hm | hm
            · exact Or.inl (testLoop_stInv_false r rest s1 a 1 i hm).1
            · exact Or.inr (testLoop_resInv_false r rest s1 a 1 i hm).1
          have hsteps : stepsLe (testLoop r s1 a 1 rest).2 i := by
            rcases hmem with hm | hm
            · exact (testLoop_stInv_false r rest s1 a 1 i hm).2.2
            · exact (testLoop_resInv_false r rest s1 a 1 i hm).2.2
          constructor
          · rcases hout with h1 | h1
            · exact ⟨.stateInv, h1⟩
            · exact ⟨.resultInv, h1⟩
          · intro ev hev j hj
            simp only [List.mem_cons] at hev
            rcases hev with hev | hev | hev
            · subst hev; exact absurd hj (by simp [Event.stepIdx])
            · subst hev; exact absurd hj (by simp [Event.stepIdx])
            · exact hsteps ev hev j hj

end RunnerFailFast2



section RunnerErr

variable {S A R E Err : Type} (r : Runner S A R E Err)

/-- The loop's outcome is an operation error exactly when its log records an
operation returning that error. -/
theorem testLoop_err_iff :
    ∀ (rest : List E) (s : S) (a : A) (i0 : Nat) (e : Err),
      (testLoop r s a i0 rest).1 = .err e ↔
        ∃ ev ∈ (testLoop r s a i0 rest).2, Event.errOf ev = some e := by
  intro rest
  induction rest with
  | nil =>
    intro s a i0 e
    rw [testLoop_nil]
    simp
  | cons ex rest ih =>
    intro s a i0 e
    cases hstep : r.step s a ex with
    | error er =>
      rw [testLoop_stepErr r hstep]
      simp [Event.errOf]
    | ok v =>
      obtain ⟨res, a2, s2⟩ := v
      cases hres : r.result_invariant s2 res ex with
      | error er =>
        rw [testLoop_resInvErr r hstep hres]
        simp [Event.errOf]
      | ok b =>
        cases b with
        | false =>
          rw [testLoop_resInvFalse r hstep hres]
          simp [Event.errOf]
        | true =>
          cases hst : r.state_invariant s2 a2 ex with
          | error er =>
            rw [testLoop_stInvErr r hstep hres hst]
            simp [Event.errOf]
          | ok b2 =>
            cases b2 with
            | false =>
              rw [testLoop_stInvFalse r hstep hres hst]
              simp [Event.errOf]
            | true =>
              rw [testLoop_next r hstep hres hst]
              simp only [List.mem_cons, exists_eq_or_imp]
              rw [ih s2 a2 (i0 + 1) e]
              simp [Event.errOf]

/-- The run's outcome is an operation error exactly when its log records an
operation returning that error. -/
theorem test_err_iff (s : S) (trace : List E) (e : Err) :
    (Runner.test r s trace).1 = .err e ↔
      ∃ ev ∈ (Runner.test r s trace).2, Event.errOf ev = some e := by
  cases trace with
  | nil =>
    rw [test_nil]
    simp
  | cons e0 rest =>
    cases hinit : r.init s e0 with
    | error er =>
      rw [test_initErr r hinit]
      simp [Event.errOf]
    | ok v =>
      obtain ⟨a, s1⟩ := v
      cases hst : r.state_invariant s1 a e0 with
      | error er =>
        rw [test_stInvErr0 r hinit hst]
        simp [Event.errOf]
      | ok b =>
        cases b with
        | false =>
          rw [test_stInvFalse0 r hinit hst]
          simp [Event.errOf]
        | true =>
          rw [test_go r hinit hst]
          simp only [List.mem_cons, exists_eq_or_imp]
          rw [testLoop_err_iff r rest s1 a 1 e]
          simp [Event.errOf]

end RunnerErr

/-- C1: for every implementation of the four runner operations and every
expected-state trace, if a result or state invariant check evaluated to
`false` at trace index `i` during the run (the run's log records it), the
run halted with the assertion failure at index `i` and `step` was never
invoked for any trace element after index `i`. -/
theorem runner_fail_fast {S A R E Err : Type} (r : Runner S A R E Err) (s : S)
    (trace : List E) (i : Nat)
    (h : Event.stInv i false ∈ (Runner.test r s trace).2 ∨
      Event.resInv i false ∈ (Runner.test r s trace).2) :
    (∃ k, (Runner.test r s trace).1 = .assertFail k i) ∧
      stepsLe (Runner.test r s trace).2 i :=
  test_false_inv r s trace i h

/-- Witness for C1: on the 3-state trace `[0, 1, 2]` whose state invariant is
false on the second element, the run aborts at step index 1 and no `step`
call beyond index 1 is recorded (in particular none for the third element). -/
theorem runner_fail_fast_witness :
    (∃ k, (Runner.test cRunnerA () [0, 1, 2]).1 = .assertFail k 1) ∧
      stepsLe (Runner.test cRunnerA () [0, 1, 2]).2 1 :=
  runner_fail_fast cRunnerA () [0, 1, 2] 1 (Or.inl (by decide))

/-- C9: `test` returns the caller-defined error value `e` precisely when one
of `init`, `step`, `result_invariant` or `state_invariant` returned the
error `e` during the run; a recorded false invariant check instead aborts
with an assertion failure, never with an `Err` return. -/
theorem runner_err_semantics {S A R E Err : Type} (r : Runner S A R E Err) (s : S)
    (trace : List E) (e : Err) :
    ((Runner.test r s trace).1 = .err e ↔
      ∃ ev ∈ (Runner.test r s trace).2, Event.errOf ev = some e) ∧
      ∀ i, (Event.stInv i false ∈ (Runner.test r s trace).2 ∨
          Event.resInv i false ∈ (Runner.test r s trace).2) →
        (Runner.test r s trace).1 ≠ .err e := by
  refine ⟨test_err_iff r s trace e, ?_⟩
  intro i h hne
  obtain ⟨⟨k, hk⟩, _⟩ := test_false_inv r s trace i h
  rw [hk] at hne
  exact Outcome.noConfusion hne

/-- Witness for C9 at a concrete two-state trace whose first step errors. -/
theorem runner_err_semantics_witness :
    ((Runner.test cRunnerB () [0, 1]).1 = .err ("boom") ↔
      ∃ ev ∈ (Runner.test cRunnerB () [0, 1]).2, Event.errOf ev = some ("boom")) ∧
      ∀ i, (Event.stInv i false ∈ (Runner.test cRunnerB () [0, 1]).2 ∨
          Event.resInv i false ∈ (Runner.test cRunnerB () [0, 1]).2) →
        (Runner.test cRunnerB () [0, 1]).1 ≠ .err ("boom") :=
  runner_err_semantics cRunnerB () [0, 1] ("boom")



/-- Decoding a tagged object that carries exactly the tag key once behaves as
decoding the payload. -/
theorem deserializeTagged_singleton {α : Type} (tag : String)
    (inner : Json → Except DeError α) (v : Json) :
    deserializeTagged tag inner (.obj [(tag, v)]) = inner v := by
  show structFields tag inner [(tag, v)] none = inner v
  rw [structFields_cons, if_pos rfl]
  cases hv : inner v with
  | error e => rfl
  | ok a => rfl

/-- Unfolding equation of `decodeVec` at a cons cell. -/
theorem decodeVec_cons {α : Type} (d : Json → Except DeError α) (x : Json) (xs : List Json) :
    decodeVec d (x :: xs) =
      match d x with
      | .error e => .error e
      | .ok a =>
        match decodeVec d xs with
        | .error e => .error e
        | .ok as => .ok (a :: as) := rfl

section SetLemmas

variable {α : Type} [DecidableEq α]

theorem mem_hashSetInsert (s : List α) (x a : α) :
    a ∈ hashSetInsert s x ↔ a ∈ s ∨ a = x := by
  unfold hashSetInsert
  by_cases h : x ∈ s
  · rw [if_pos h]
    constructor
    · exact Or.inl
    · rintro (ha | ha)
      · exact ha
      · rw [ha]; exact h
  · rw [if_neg h]
    simp [List.mem_append]

theorem nodup_hashSetInsert (s : List α) (x : α) (hs : s.Nodup) :
    (hashSetInsert s x).Nodup := by
  unfold hashSetInsert
  by_cases h : x ∈ s
  · rw [if_pos h]; exact hs
  · rw [if_neg h]
    simp [List.nodup_append, hs, h]

theorem mem_hashSetFold (xs : List α) : ∀ (s : List α) (a : α),
    a ∈ xs.foldl hashSetInsert s ↔ a ∈ s ∨ a ∈ xs := by
  induction xs with
  | nil => intro s a; simp
  | cons x xs ih =>
    intro s a
    show a ∈ xs.foldl hashSetInsert (hashSetInsert s x) ↔ _
    rw [ih, mem_hashSetInsert]
    simp [List.mem_cons]
    tauto

theorem nodup_hashSetFold (xs : List α) : ∀ (s : List α), s.Nodup →
    (xs.foldl hashSetInsert s).Nodup := by
  induction xs with
  | nil => intro s hs; exact hs
  | cons x xs ih =>
    intro s hs
    exact ih (hashSetInsert s x) (nodup_hashSetInsert s x hs)

theorem mem_hashSetOfList (xs : List α) (a : α) :
    a ∈ hashSetOfList xs ↔ a ∈ xs := by
  unfold hashSetOfList
  rw [mem_hashSetFold]
  simp

theorem nodup_hashSetOfList (xs : List α) : (hashSetOfList xs).Nodup :=
  nodup_hashSetFold xs [] List.nodup_nil

end SetLemmas

section DecodeVecLemmas

variable {α : Type}

theorem decodeVec_mem (d : Json → Except DeError α) :
    ∀ (xs : List Json) (l : List α), decodeVec d xs = .ok l →
      ∀ a, a ∈ l ↔ ∃ j ∈ xs, d j = .ok a := by
  intro xs
  induction xs with
  | nil =>
    intro l h a
    simp only [decodeVec, Except.ok.injEq] at h
    subst h
    simp
  | cons x xs ih =>
    intro l h a
    rw [decodeVec_cons] at h
    cases hd : d x with
    | error e => rw [hd] at h; exact absurd h (by simp)
    | ok a0 =>
      rw [hd] at h
      cases hrest : decodeVec d xs with
      | error e => rw [hrest] at h; exact absurd h (by simp)
      | ok as =>
        rw [hrest] at h
        simp only [Except.ok.injEq] at h
        subst h
        simp only [List.mem_cons]
        constructor
        · rintro (ha | ha)
          · subst ha
            exact ⟨x, Or.inl rfl, hd⟩
          · obtain ⟨j, hj, hdj⟩ := (ih as hrest a).mp ha
            exact ⟨j, Or.inr hj, hdj⟩
        · rintro ⟨j, hj | hj, hdj⟩
          · subst hj
            rw [hd] at hdj
            simp only [Except.ok.injEq] at hdj
            exact Or.inl hdj.symm
          · exact Or.inr ((ih as hrest a).mpr ⟨j, hj, hdj⟩)

theorem decodeVec_perm (d : Json → Except DeError α) {xs ys : List Json}
    (hperm : xs.Perm ys) : ∀ {l : List α}, decodeVec d xs = .ok l →
      ∃ l2, decodeVec d ys = .ok l2 ∧ l.Perm l2 := by
  induction hperm with
  | nil =>
    intro l h
    exact ⟨l, h, List.Perm.refl l⟩
  | @cons x l1 l2 p ih =>
    intro l h
    rw [decodeVec_cons] at h
    cases hd : d x with
    | error e => rw [hd] at h; exact absurd h (by simp)
    | ok a =>
      rw [hd] at h
      cases hrest : decodeVec d l1 with
      | error e => rw [hrest] at h; exact absurd h (by simp)
      | ok as =>
        rw [hrest] at h
        simp only [Except.ok.injEq] at h
        subst h
        obtain ⟨bs, hbs, hp⟩ := ih hrest
        refine ⟨a :: bs, ?_, hp.cons a⟩
        rw [decodeVec_cons, hd, hbs]
  | @swap x y l0 =>
    intro l h
    rw [decodeVec_cons] at h
    cases hy : d y with
    | error e => rw [hy] at h; exact absurd h (by simp)
    | ok b =>
      rw [hy] at h
      rw [decodeVec_cons] at h
      cases hx : d x with
      | error e => rw [hx] at h; exact absurd h (by simp)
      | ok a =>
        rw [hx] at h
        cases hrest : decodeVec d l0 with
        | error e => rw [hrest] at h; exact absurd h (by simp)
        | ok cs =>
          rw [hrest] at h
          simp only [Except.ok.injEq] at h
          subst h
          refine ⟨a :: b :: cs, ?_, List.Perm.swap a b cs⟩
          rw [decodeVec_cons, hx, decodeVec_cons, hy, hrest]
  | trans p q ihp ihq =>
    intro l h
    obtain ⟨l1, hl1, hp1⟩ := ihp h
    obtain ⟨l2, hl2, hp2⟩ := ihq hl1
    exact ⟨l2, hl2, hp1.trans hp2⟩

end DecodeVecLemmas



/-- A successful element decode determines the set decode of a well-formed
`#set` object. -/
theorem decodeSet_obj {α : Type} [DecidableEq α] (d : Json → Except DeError α)
    (xs : List Json) (l : List α) (h : decodeVec d xs = .ok l) :
    decodeSet d (.obj [(("#set"), .arr xs)]) = .ok (Itf.mk (hashSetOfList l)) := by
  unfold decodeSet
  rw [deserializeTagged_singleton]
  have h2 : decodeSeq d (.arr xs) = .ok l := h
  rw [h2]
  rfl

/-- Inversion: a successful set decode of a well-formed `#set` object comes
from a successful element decode, collected into the hash set. -/
theorem decodeSet_obj_inv {α : Type} [DecidableEq α] (d : Json → Except DeError α)
    (xs : List Json) (s : List α)
    (h : decodeSet d (.obj [(("#set"), .arr xs)]) = .ok (Itf.mk s)) :
    ∃ l, decodeVec d xs = .ok l ∧ s = hashSetOfList l := by
  unfold decodeSet at h
  rw [deserializeTagged_singleton] at h
  cases hv : decodeVec d xs with
  | error e =>
    have h2 : decodeSeq d (.arr xs) = .error e := hv
    rw [h2] at h
    exact absurd h (by simp [Except.map])
  | ok l =>
    have h2 : decodeSeq d (.arr xs) = .ok l := hv
    rw [h2] at h
    simp only [Except.map, Except.ok.injEq] at h
    exact ⟨l, rfl, congrArg Itf.val h.symm⟩

/-- C4: decoding a `#set` object yields an unordered unique collection: the
decoded set is duplicate-free, its membership is exactly the set of values
the source array's elements decode to, and decoding any permutation of the
source array succeeds with a collection of the same membership. -/
theorem set_decode_semantics {α : Type} [DecidableEq α] (d : Json → Except DeError α)
    (xs ys : List Json) (s : List α)
    (hperm : xs.Perm ys)
    (h : decodeSet d (.obj [(("#set"), .arr xs)]) = .ok (Itf.mk s)) :
    s.Nodup ∧ (∀ a, a ∈ s ↔ ∃ j ∈ xs, d j = .ok a) ∧
      ∃ t, decodeSet d (.obj [(("#set"), .arr ys)]) = .ok (Itf.mk t) ∧
        ∀ a, a ∈ t ↔ a ∈ s := by
  obtain ⟨l, hl, hs⟩ := decodeSet_obj_inv d xs s h
  subst hs
  refine ⟨nodup_hashSetOfList l, ?_, ?_⟩
  · intro a
    rw [mem_hashSetOfList]
    exact decodeVec_mem d xs l hl a
  · obtain ⟨l2, hl2, hp⟩ := decodeVec_perm d hperm hl
    refine ⟨hashSetOfList l2, decodeSet_obj d ys l2 hl2, ?_⟩
    intro a
    rw [mem_hashSetOfList, mem_hashSetOfList]
    exact (hp.mem_iff).symm

/-- Witness for C4: the concrete input of the claim, `#set` over
`[1, 2, 2, 3, 4]` (decoding to the four-element collection `[1, 2, 3, 4]`),
and a transposed permutation of it. -/
theorem set_decode_semantics_witness :
    decodeSet decodeI64 (.obj [(("#set"), .arr [.num 1, .num 2, .num 2, .num 3, .num 4])]) =
        .ok (Itf.mk [(1 : Int), 2, 3, 4]) ∧
      ([(1 : Int), 2, 3, 4].Nodup ∧
        (∀ a, a ∈ [(1 : Int), 2, 3, 4] ↔
          ∃ j ∈ [Json.num 1, Json.num 2, Json.num 2, Json.num 3, Json.num 4], decodeI64 j = .ok a) ∧
        ∃ t, decodeSet decodeI64
            (.obj [(("#set"), .arr [.num 2, .num 1, .num 2, .num 3, .num 4])]) =
            .ok (Itf.mk t) ∧ ∀ a, a ∈ t ↔ a ∈ [(1 : Int), 2, 3, 4]) :=
  ⟨rfl, set_decode_semantics decodeI64
    [.num 1, .num 2, .num 2, .num 3, .num 4]
    [.num 2, .num 1, .num 2, .num 3, .num 4]
    [(1 : Int), 2, 3, 4]
    (List.Perm.swap (Json.num 2) (Json.num 1) [Json.num 2, Json.num 3, Json.num 4]) rfl⟩



section MapLemmas

variable {K V : Type} [DecidableEq K]

theorem assocLookup_nil (k : K) : assocLookup ([] : List (K × V)) k = none := rfl

theorem assocLookup_cons (k0 : K) (v0 : V) (m : List (K × V)) (k : K) :
    assocLookup ((k0, v0) :: m) k = if k0 = k then some v0 else assocLookup m k := by
  unfold assocLookup
  by_cases h : k0 = k
  · rw [if_pos h]
    simp [List.find?_cons, h]
  · rw [if_neg h]
    simp [List.find?_cons, h]

theorem assocLookup_replace_ne (m : List (K × V)) (k0 k : K) (v0 : V) (hne : k0 ≠ k) :
    assocLookup (m.map (fun p => if p.1 = k0 then (k0, v0) else p)) k = assocLookup m k := by
  induction m with
  | nil => rfl
  | cons a m ih =>
    obtain ⟨ka, va⟩ := a
    by_cases hka : ka = k0
    · simp only [List.map_cons, if_pos hka]
      rw [assocLookup_cons, if_neg hne, ih, assocLookup_cons]
      rw [if_neg (by rw [hka]; exact hne)]
    · simp only [List.map_cons, if_neg hka]
      rw [assocLookup_cons, assocLookup_cons, ih]

theorem assocLookup_replace_eq (m : List (K × V)) (k0 : K) (v0 : V)
    (hany : m.any (fun p => decide (p.1 = k0)) = true) :
    assocLookup (m.map (fun p => if p.1 = k0 then (k0, v0) else p)) k0 = some v0 := by
  induction m with
  | nil => simp at hany
  | cons a m ih =>
    obtain ⟨ka, va⟩ := a
    by_cases hka : ka = k0
    · simp only [List.map_cons, if_pos hka]
      rw [assocLookup_cons, if_pos rfl]
    · simp only [List.map_cons, if_neg hka]
      rw [assocLookup_cons, if_neg hka]
      apply ih
      simp only [List.any_cons, Bool.or_eq_true, decide_eq_true_eq] at hany
      rcases hany with h | h
      · exact absurd h hka
      · simpa using h

theorem assocLookup_not_found (m : List (K × V)) (k0 : K)
    (hany : m.any (fun p => decide (p.1 = k0)) = false) :
    assocLookup m k0 = none := by
  induction m with
  | nil => rfl
  | cons a m ih =>
    obtain ⟨ka, va⟩ := a
    simp only [List.any_cons, Bool.or_eq_false_iff, decide_eq_false_iff_not] at hany
    rw [assocLookup_cons, if_neg hany.1]
    apply ih
    simpa using hany.2

theorem assocLookup_append_right_some (m : List (K × V)) (k0 : K) (v0 : V) (k : K) (v : V)
    (hm : assocLookup m k = some v) :
    assocLookup (m ++ [(k0, v0)]) k = some v := by
  induction m with
  | nil => rw [assocLookup_nil] at hm; exact absurd hm (by simp)
  | cons a m ih =>
    obtain ⟨ka, va⟩ := a
    rw [assocLookup_cons] at hm
    show assocLookup ((ka, va) :: (m ++ [(k0, v0)])) k = some v
    rw [assocLookup_cons]
    by_cases h : ka = k
    · rw [if_pos h]
      rw [if_pos h] at hm
      exact hm
    · rw [if_neg h]
      rw [if_neg h] at hm
      exact ih hm

theorem assocLookup_append_right_none (m : List (K × V)) (k0 : K) (v0 : V) (k : K)
    (hm : assocLookup m k = none) :
    assocLookup (m ++ [(k0, v0)]) k = if k0 = k then some v0 else none := by
  induction m with
  | nil =>
    rw [List.nil_append, assocLookup_cons]
    by_cases h : k0 = k
    · rw [if_pos h, if_pos h]
    · rw [if_neg h, if_neg h, assocLookup_nil]
  | cons a m ih =>
    obtain ⟨ka, va⟩ := a
    rw [assocLookup_cons] at hm
    show assocLookup ((ka, va) :: (m ++ [(k0, v0)])) k = _
    rw [assocLookup_cons]
    by_cases h : ka = k
    · rw [if_pos h] at hm
      exact absurd hm (by simp)
    · rw [if_neg h]
      rw [if_neg h] at hm
      exact ih hm

/-- `HashMap::insert` observable semantics: lookup after insert. -/
theorem assocLookup_hashMapInsert (m : List (K × V)) (k0 : K) (v0 : V) (k : K) :
    assocLookup (hashMapInsert m k0 v0) k = if k0 = k then some v0 else assocLookup m k := by
  unfold hashMapInsert
  cases hany : m.any (fun p => decide (p.1 = k0)) with
  | true =>
    rw [if_pos rfl]
    by_cases h : k0 = k
    · subst h
      rw [if_pos rfl]
      exact assocLookup_replace_eq m k0 v0 hany
    · rw [if_neg h]
      exact assocLookup_replace_ne m k0 k v0 h
  | false =>
    rw [if_neg (by simp [hany])]
    by_cases h : k0 = k
    · subst h
      rw [assocLookup_append_right_none m k0 v0 k0 (assocLookup_not_found m k0 hany)]
      rw [if_pos rfl, if_pos rfl]
    · cases hm : assocLookup m k with
      | some v =>
        rw [assocLookup_append_right_some m k0 v0 k v hm, if_neg h]
      | none =>
        rw [assocLookup_append_right_none m k0 v0 k hm]

theorem assocLookup_hashMapFold (ps : List (K × V)) : ∀ (m : List (K × V)) (k : K),
    assocLookup (ps.foldl (fun m p => hashMapInsert m p.1 p.2) m) k =
      match lastWriteLookup ps k with
      | some v => some v
      | none => assocLookup m k := by
  induction ps with
  | nil => intro m k; rfl
  | cons p ps ih =>
    intro m k
    obtain ⟨k0, v0⟩ := p
    show assocLookup (ps.foldl (fun m p => hashMapInsert m p.1 p.2) (hashMapInsert m k0 v0)) k = _
    rw [ih]
    cases hl : lastWriteLookup ps k with
    | some v =>
      have hcons : lastWriteLookup ((k0, v0) :: ps) k = some v := by
        show (match lastWriteLookup ps k with
          | some v => some v
          | none => if k0 = k then some v0 else none) = some v
        rw [hl]
      rw [hcons]
    | none =>
      have hcons : lastWriteLookup ((k0, v0) :: ps) k = if k0 = k then some v0 else none := by
        show (match lastWriteLookup ps k with
          | some v => some v
          | none => if k0 = k then some v0 else none) = _
        rw [hl]
      rw [hcons, assocLookup_hashMapInsert]
      by_cases h : k0 = k
      · rw [if_pos h, if_pos h]
      · rw [if_neg h, if_neg h]

/-- Lookup in the collected map is the last-write-wins lookup over the pair
array. -/
theorem assocLookup_hashMapOfList (ps : List (K × V)) (k : K) :
    assocLookup (hashMapOfList ps) k = lastWriteLookup ps k := by
  show assocLookup (ps.foldl (fun m p => hashMapInsert m p.1 p.2) []) k = _
  rw [assocLookup_hashMapFold]
  cases lastWriteLookup ps k with
  | some v => rfl
  | none => rfl

end MapLemmas



/-- A successful pair-vector decode determines the map decode of a
well-formed `#map` object. -/
theorem decodeMap_obj {K V : Type} [DecidableEq K] (dK : Json → Except DeError K)
    (dV : Json → Except DeError V) (xs : List Json) (ps : List (K × V))
    (hps : decodeVec (decodePair dK dV) xs = .ok ps) :
    decodeMap dK dV (.obj [(("#map"), .arr xs)]) = .ok (Itf.mk (hashMapOfList ps)) := by
  unfold decodeMap
  rw [deserializeTagged_singleton]
  have h2 : decodeSeq (decodePair dK dV) (.arr xs) = .ok ps := hps
  rw [h2]
  rfl

/-- C3: decoding a `#map` object builds the mapping by inserting the decoded
pairs in array order with later insertions overwriting earlier ones for
equal decoded keys: lookup in the decoded map is exactly last-write-wins
lookup over the decoded pair sequence. -/
theorem map_decode_last_write_wins {K V : Type} [DecidableEq K]
    (dK : Json → Except DeError K) (dV : Json → Except DeError V)
    (xs : List Json) (ps : List (K × V)) (m : List (K × V))
    (hps : decodeVec (decodePair dK dV) xs = .ok ps)
    (hm : decodeMap dK dV (.obj [(("#map"), .arr xs)]) = .ok (Itf.mk m)) :
    ∀ k, assocLookup m k = lastWriteLookup ps k := by
  have hobj := decodeMap_obj dK dV xs ps hps
  rw [hobj] at hm
  simp only [Except.ok.injEq] at hm
  have hmm : hashMapOfList ps = m := congrArg Itf.val hm
  intro k
  rw [← hmm]
  exact assocLookup_hashMapOfList ps k

/-- Witness for C3 at the concrete input of the claim: the pair array
`[["k", 1], ["k", 2]]` decodes to the single pair `("k", 2)`, and lookup in
the decoded map is last-write-wins over the decoded pairs. -/
theorem map_decode_last_write_wins_witness :
    decodeMap decodeString decodeI64
        (.obj [(("#map"), .arr [.arr [.str ("k"), .num 1], .arr [.str ("k"), .num 2]])]) =
      .ok (Itf.mk [(("k"), (2 : Int))]) ∧
      ∀ k, assocLookup [(("k"), (2 : Int))] k =
        lastWriteLookup [(("k"), (1 : Int)), (("k"), (2 : Int))] k :=
  ⟨rfl, map_decode_last_write_wins decodeString decodeI64
    [.arr [.str ("k"), .num 1], .arr [.str ("k"), .num 2]]
    [(("k"), (1 : Int)), (("k"), (2 : Int))]
    [(("k"), (2 : Int))] rfl rfl⟩


end ItfRs
